import Mathlib

/-!
Formal model of the `fractals` repository (files `fractal.go` and `canvas.go`):
the escape-time Mandelbrot evaluator, the gradient colorizer, the canvas
primitives and the convolution blur, together with theorems checking the
specification's statements against these definitions.

Machine integers (`int`) are modelled as `ℤ`, `uint8` channels as `ℕ`,
`float64` as `ℝ`, `complex128` as `ℂ`.  The Go conversions `int(f)` and
`uint8(f)` are modelled by explicit truncation functions below.
-/

namespace Fractals

noncomputable section

/-- Go conversion `int(f)` for a `float64` `f`: truncation toward zero. -/
def goTrunc (r : ℝ) : ℤ := if 0 ≤ r then ⌊r⌋ else -⌊-r⌋

/-- Go conversion `uint8(f)`: truncation toward zero, then reduction mod 256.
For in-range values this is exact Go semantics; for out-of-range values the Go
conversion is implementation-specific and this mirrors the usual wrap-around. -/
def goUint8 (r : ℝ) : ℕ := ((goTrunc r) % 256).toNat

/-- One RGBA pixel: four 8-bit channels, kept as naturals. -/
structure Rgba where
  r : ℕ
  g : ℕ
  b : ℕ
  a : ℕ
  deriving DecidableEq

/-- The 16-bit channel expansion performed by `color.RGBA.RGBA()`:
`v | v << 8 = v * 0x101` for an 8-bit channel `v`. -/
def r16 (v : ℕ) : ℕ := v * 257

/-- A `Canvas` wraps an `image.RGBA` with bounds `(0,0)-(width,height)`. -/
structure Canvas where
  width : ℤ
  height : ℤ
  data : ℤ → ℤ → Rgba

/-- A coordinate lies inside the canvas rectangle `[0,width) × [0,height)`. -/
def Canvas.inBounds (c : Canvas) (x y : ℤ) : Prop :=
  0 ≤ x ∧ x < c.width ∧ 0 ≤ y ∧ y < c.height

instance (c : Canvas) (x y : ℤ) : Decidable (c.inBounds x y) := by
  unfold Canvas.inBounds
  infer_instance

/-- Method `At` of the embedded `image.RGBA`: returns the stored pixel, or the zero color outside the
canvas bounds. -/
def Canvas.At (c : Canvas) (x y : ℤ) : Rgba :=
  if c.inBounds x y then c.data x y else ⟨0, 0, 0, 0⟩

/-- Method `Set` of the embedded `image.RGBA`: stores a pixel, a no-op outside the canvas bounds. -/
def Canvas.Set (c : Canvas) (x y : ℤ) (col : Rgba) : Canvas :=
  if c.inBounds x y then
    { c with data := fun i j => if i = x ∧ j = y then col else c.data i j }
  else c

/-- Function `toCmplx` from fractal.go: `center + complex(float64(x)/zoom, float64(y)/zoom)`. -/
def toCmplx (x y : ℤ) (zoom : ℝ) (center : ℂ) : ℂ :=
  center + ⟨(x : ℝ) / zoom, (y : ℝ) / zoom⟩

/-- The loop of `mandelbrot` from fractal.go, with current value `z` and the
number of remaining iterations: each iteration computes `z = z*z + c` and
returns the constant `1000` as soon as `cmplx.Abs(z) > 1000`; when the
iterations are exhausted it returns `cmplx.Abs(z)`. -/
def mandelbrotGo (c : ℂ) (z : ℂ) : ℕ → ℝ
  | 0 => Complex.abs z
  | n + 1 =>
    if 1000 < Complex.abs (z * z + c) then 1000 else mandelbrotGo c (z * z + c) n

/-- Function `mandelbrot` from fractal.go: run the loop from `z = 0`. -/
def mandelbrot (c : ℂ) (iter : ℕ) : ℝ := mandelbrotGo c 0 iter

/-- The Mandelbrot orbit of `c`: `z_0 = 0`, `z_{n+1} = z_n * z_n + c`. -/
def zSeq (c : ℂ) : ℕ → ℂ
  | 0 => 0
  | n + 1 => zSeq c n * zSeq c n + c

/-! ### Basic facts about the mandelbrot loop -/

lemma mandelbrotGo_nonneg (c z : ℂ) (n : ℕ) : 0 ≤ mandelbrotGo c z n := by
  induction n generalizing z with
  | zero => exact Complex.abs.nonneg z
  | succ n ih =>
    simp only [mandelbrotGo]
    split_ifs with h
    · norm_num
    · exact ih _

lemma mandelbrotGo_le (c z : ℂ) (n : ℕ) (hz : Complex.abs z ≤ 1000) :
    mandelbrotGo c z n ≤ 1000 := by
  induction n generalizing z with
  | zero => exact hz
  | succ n ih =>
    simp only [mandelbrotGo]
    split_ifs with h
    · exact le_refl 1000
    · exact ih _ (le_of_not_lt h)

/-- Running the loop from the `k`-th orbit point with `n` iterations left, if no
orbit point up to step `k + n` has modulus above the bail-out, the loop exhausts
its budget and returns the modulus of the final orbit point. -/
lemma mandelbrotGo_run (c : ℂ) (n k : ℕ)
    (h : ∀ j, k < j → j ≤ k + n → Complex.abs (zSeq c j) ≤ 1000) :
    mandelbrotGo c (zSeq c k) n = Complex.abs (zSeq c (k + n)) := by
  induction n generalizing k with
  | zero => rfl
  | succ n ih =>
    simp only [mandelbrotGo]
    have hz : zSeq c k * zSeq c k + c = zSeq c (k + 1) := rfl
    rw [hz]
    have hk1 : Complex.abs (zSeq c (k + 1)) ≤ 1000 :=
      h (k + 1) (Nat.lt_succ_self k) (by omega)
    rw [if_neg (not_lt.mpr hk1)]
    have harg : k + 1 + n = k + (n + 1) := by omega
    rw [ih (k + 1) (fun j hj1 hj2 => h j (by omega) (by omega)), harg]

/-- Running the loop from the `k`-th orbit point with `n` iterations left, if
some orbit point within the budget has modulus above the bail-out, the loop
short-circuits and returns the constant `1000`. -/
lemma mandelbrotGo_escape (c : ℂ) (n k j : ℕ) (hj1 : k < j) (hj2 : j ≤ k + n)
    (hj : 1000 < Complex.abs (zSeq c j)) :
    mandelbrotGo c (zSeq c k) n = 1000 := by
  induction n generalizing k with
  | zero => omega
  | succ n ih =>
    simp only [mandelbrotGo]
    have hz : zSeq c k * zSeq c k + c = zSeq c (k + 1) := rfl
    rw [hz]
    by_cases h1 : 1000 < Complex.abs (zSeq c (k + 1))
    · rw [if_pos h1]
    · rw [if_neg h1]
      have hne : j ≠ k + 1 := by
        intro he
        rw [he] at hj
        exact h1 hj
      exact ih (k + 1) (by omega) (by omega)

/-- The closure returned by `createColorizer` in fractal.go, parametrized by
the gradient strip canvas it captures: with `limit = height - 1` it computes
`m = int(math.Max(math.Min(300*mag, float64(limit)), 1))` and returns the
pixel at `(0, m)`. -/
def colorize (gradient : Canvas) (mag : ℝ) : Rgba :=
  gradient.At 0 (goTrunc (max (min (300 * mag) ((gradient.height - 1 : ℤ) : ℝ)) 1))

/-- A concrete gradient strip of height 10 whose pixel at row `y` stores `y` in
its red channel, so distinct rows are distinguishable. -/
def gradC : Canvas := ⟨1, 10, fun _ y => ⟨y.toNat, 0, 0, 255⟩⟩

/-! ### Claim theorems: fractal evaluator -/

/-- C7: `toCmplx(0, 0, zoom, center) = center` for any zoom and center, and in
general `toCmplx(x, y, zoom, center) = center + (x/zoom, y/zoom)`, stated both
as the complex sum `center + (x/zoom + (y/zoom) * I)` and componentwise: the
real part is `center.re + x/zoom` and the imaginary part `center.im + y/zoom`. -/
theorem toCmplx_center_offset (x y : ℤ) (zoom : ℝ) (center : ℂ) :
    toCmplx 0 0 zoom center = center ∧
    toCmplx x y zoom center =
      center + (((x : ℝ) / zoom : ℝ) + (((y : ℝ) / zoom : ℝ) : ℂ) * Complex.I) ∧
    (toCmplx x y zoom center).re = center.re + (x : ℝ) / zoom ∧
    (toCmplx x y zoom center).im = center.im + (y : ℝ) / zoom := by
  refine ⟨?_, ?_, ?_, ?_⟩
  · unfold toCmplx
    apply Complex.ext <;> simp
  · unfold toCmplx
    rw [Complex.mk_eq_add_mul_I]
  · show center.re + ((⟨(x : ℝ) / zoom, (y : ℝ) / zoom⟩ : ℂ)).re = _
    rfl
  · show center.im + ((⟨(x : ℝ) / zoom, (y : ℝ) / zoom⟩ : ℂ)).im = _
    rfl

/-- C1 (amended): `mandelbrot` starts from `z = 0`, iterates `z = z*z + c` at
most `maxIter` times, and returns the clamp constant `1000` (not the modulus)
as soon as `|z| > 1000`, short-circuiting further iteration; otherwise it
returns `|z|` after exhausting `maxIter` iterations. -/
theorem mandelbrot_iteration_characterization (c : ℂ) (iter : ℕ) :
    ((∀ j, 1 ≤ j → j ≤ iter → Complex.abs (zSeq c j) ≤ 1000) →
      mandelbrot c iter = Complex.abs (zSeq c iter)) ∧
    (∀ j, 1 ≤ j → j ≤ iter → 1000 < Complex.abs (zSeq c j) →
      mandelbrot c iter = 1000) := by
  constructor
  · intro h
    have h0 := mandelbrotGo_run c iter 0 (fun j hj1 hj2 => h j (by omega) (by omega))
    have hz0 : zSeq c 0 = 0 := rfl
    rw [hz0, Nat.zero_add] at h0
    exact h0
  · intro j hj1 hj2 hj
    have h0 := mandelbrotGo_escape c iter 0 j (by omega) (by omega) hj
    have hz0 : zSeq c 0 = 0 := rfl
    rw [hz0] at h0
    exact h0

/-- C1 witness: at `c = 0` (whose orbit is constantly `0`) with one iteration,
the loop exhausts the budget and returns the modulus of the final orbit point. -/
theorem mandelbrot_iteration_characterization_witness :
    mandelbrot 0 1 = Complex.abs (zSeq 0 1) := by
  refine (mandelbrot_iteration_characterization 0 1).1 ?_
  intro j hj1 hj2
  have hj : j = 1 := by omega
  subst hj
  have h1 : zSeq 0 1 = 0 := by
    show zSeq 0 0 * zSeq 0 0 + 0 = 0
    simp [zSeq]
  rw [h1]
  simp

/-- C1 counterexample: at `c = 2000` with one iteration the first orbit point
has modulus `2000 > 1000`, and the code returns the clamp constant `1000`, not
the modulus `2000` the claim asserts. -/
theorem mandelbrot_escape_returns_clamp_cex :
    1000 < Complex.abs (zSeq 2000 1) ∧
    mandelbrot 2000 1 = 1000 ∧
    mandelbrot 2000 1 ≠ Complex.abs (zSeq 2000 1) := by
  have habs : Complex.abs (zSeq 2000 1) = 2000 := by
    have h1 : zSeq 2000 1 = 2000 := by
      show zSeq 2000 0 * zSeq 2000 0 + 2000 = 2000
      simp [zSeq]
    rw [h1, Complex.abs_ofNat]
  have hm : mandelbrot 2000 1 = 1000 := by
    show mandelbrotGo 2000 0 1 = 1000
    simp only [mandelbrotGo]
    rw [if_pos]
    have h1 : (0 : ℂ) * 0 + 2000 = 2000 := by ring
    rw [h1, Complex.abs_ofNat]
    norm_num
  refine ⟨by rw [habs]; norm_num, hm, by rw [habs, hm]; norm_num⟩

/-- Any orbit starting with `|c| ≥ 3` at least doubles in modulus each step:
`|z_{n+1}| ≥ |c| * 2^n`. -/
lemma zSeq_abs_growth (c : ℂ) (h3 : 3 ≤ Complex.abs c) (n : ℕ) :
    Complex.abs c * 2 ^ n ≤ Complex.abs (zSeq c (n + 1)) := by
  induction n with
  | zero =>
    have h1 : zSeq c 1 = c := by
      show zSeq c 0 * zSeq c 0 + c = c
      simp [zSeq]
    rw [h1, pow_zero, mul_one]
  | succ n ih =>
    have hstep : Complex.abs (zSeq c (n + 1)) * Complex.abs (zSeq c (n + 1)) -
        Complex.abs c ≤ Complex.abs (zSeq c (n + 1 + 1)) := by
      have h := Complex.abs.le_add (zSeq c (n + 1) * zSeq c (n + 1)) c
      rw [map_mul] at h
      exact h
    have h2n : (1 : ℝ) ≤ 2 ^ n := by
      have h := pow_le_pow_right₀ (show (1 : ℝ) ≤ 2 by norm_num) (Nat.zero_le n)
      simpa using h
    have hs3 : 3 ≤ Complex.abs (zSeq c (n + 1)) := by nlinarith
    rw [pow_succ]
    nlinarith [hstep, ih, h3, h2n, hs3,
      mul_nonneg (mul_nonneg (Complex.abs.nonneg c) (le_of_lt (by positivity : (0:ℝ) < 2 ^ n)))
        (Complex.abs.nonneg (zSeq c (n + 1)))]

/-- C2 (amended): for every `c` with `|c| ≥ 3`, the orbit escapes within ten
iterations and `mandelbrot c 50 = 1000` (the original bound `|c| > 2` is not
sufficient for 50 iterations, see the counterexample). -/
theorem mandelbrot_escape_of_three_le_abs (c : ℂ) (h3 : 3 ≤ Complex.abs c) :
    mandelbrot c 50 = 1000 := by
  have h10 : 1000 < Complex.abs (zSeq c 10) := by
    have hg := zSeq_abs_growth c h3 9
    have h2 : (2 : ℝ) ^ 9 = 512 := by norm_num
    rw [h2] at hg
    nlinarith
  have h0 := mandelbrotGo_escape c 50 0 10 (by omega) (by omega) h10
  have hz0 : zSeq c 0 = 0 := rfl
  rw [hz0] at h0
  exact h0

/-- C2 witness: `c = 3` has modulus `3` and reaches the clamp. -/
theorem mandelbrot_escape_of_three_le_abs_witness :
    mandelbrot ((3 : ℝ) : ℂ) 50 = 1000 := by
  refine mandelbrot_escape_of_three_le_abs _ ?_
  rw [Complex.abs_ofReal]
  norm_num

/-- A concrete parameter of modulus barely above `2`: `-2 - 5^{-60}`. -/
def aSlow : ℝ := -2 - 1 / 5 ^ 60

/-- The Mandelbrot orbit of the real parameter `aSlow` (a real parameter has a
real orbit). -/
def rSlow : ℕ → ℝ
  | 0 => 0
  | n + 1 => rSlow n * rSlow n + aSlow

lemma rSlow_one : rSlow 1 = aSlow := by
  show rSlow 0 * rSlow 0 + aSlow = aSlow
  simp [rSlow]

lemma zSeq_aSlow (n : ℕ) : zSeq ((aSlow : ℝ) : ℂ) n = ((rSlow n : ℝ) : ℂ) := by
  induction n with
  | zero => simp [zSeq, rSlow]
  | succ n ih =>
    show zSeq ((aSlow : ℝ) : ℂ) n * zSeq ((aSlow : ℝ) : ℂ) n + _ =
      ((rSlow n * rSlow n + aSlow : ℝ) : ℂ)
    rw [ih]
    push_cast
    ring

lemma pow_ratio_le_one (k : ℕ) (hk : k ≤ 58) : (5 : ℝ) ^ (k + 2) / 5 ^ 60 ≤ 1 := by
  rw [div_le_one (by positivity)]
  exact pow_le_pow_right₀ (by norm_num) (by omega)

/-- The orbit of `aSlow` stays within `5^(k+2)/5^60` of the repelling fixed
point `2` for the first fifty iterations: the perturbation grows by at most a
factor of five per step. -/
lemma rSlow_close (k : ℕ) (hk : k ≤ 48) : |rSlow (k + 2) - 2| ≤ 5 ^ (k + 2) / 5 ^ 60 := by
  induction k with
  | zero =>
    have h2 : rSlow 2 = aSlow * aSlow + aSlow := by
      show rSlow 1 * rSlow 1 + aSlow = _
      rw [rSlow_one]
    rw [h2, abs_le]
    unfold aSlow
    constructor <;> norm_num
  | succ k ih =>
    have hd := ih (by omega)
    rw [abs_le] at hd
    obtain ⟨hd1, hd2⟩ := hd
    have hstep : rSlow (k + 3) - 2 =
        (rSlow (k + 2) - 2) * ((rSlow (k + 2) - 2) + 4) - 1 / 5 ^ 60 := by
      show rSlow (k + 2) * rSlow (k + 2) + aSlow - 2 = _
      unfold aSlow
      ring
    have hDpos : (0 : ℝ) ≤ 5 ^ (k + 2) / 5 ^ 60 := by positivity
    have hD1 : (5 : ℝ) ^ (k + 2) / 5 ^ 60 ≤ 1 := pow_ratio_le_one k (by omega)
    have hεD : (1 : ℝ) / 5 ^ 60 ≤ 5 ^ (k + 2) / 5 ^ 60 := by
      apply div_le_div_of_nonneg_right ?_ (by positivity)
      · exact one_le_pow₀ (by norm_num)
    have hdsq : (rSlow (k + 2) - 2) * (rSlow (k + 2) - 2) ≤
        (5 ^ (k + 2) / 5 ^ 60) * (5 ^ (k + 2) / 5 ^ 60) := by nlinarith
    have hDsq : (5 ^ (k + 2) / 5 ^ 60 : ℝ) * (5 ^ (k + 2) / 5 ^ 60) ≤
        5 ^ (k + 2) / 5 ^ 60 := by nlinarith
    have hgoal5 : (5 : ℝ) ^ (k + 3) / 5 ^ 60 = 5 * (5 ^ (k + 2) / 5 ^ 60) := by
      rw [pow_succ]
      ring
    have hdnn : (0 : ℝ) ≤ (rSlow (k + 2) - 2) * (rSlow (k + 2) - 2) :=
      mul_self_nonneg _
    have hεnn : (0 : ℝ) ≤ 1 / 5 ^ 60 := by positivity
    rw [hstep, abs_le, hgoal5]
    constructor <;> nlinarith

/-- No orbit point of `aSlow` leaves the disk of radius `3` within fifty steps. -/
lemma rSlow_abs_le (j : ℕ) (h1 : 1 ≤ j) (h2 : j ≤ 50) : |rSlow j| ≤ 3 := by
  rcases Nat.lt_or_ge j 2 with hj | hj
  · have hje : j = 1 := by omega
    subst hje
    rw [rSlow_one, abs_le]
    unfold aSlow
    constructor <;> norm_num
  · obtain ⟨k, rfl⟩ : ∃ k, j = k + 2 := ⟨j - 2, by omega⟩
    have hd := rSlow_close k (by omega)
    have hD1 : (5 : ℝ) ^ (k + 2) / 5 ^ 60 ≤ 1 := pow_ratio_le_one k (by omega)
    rw [abs_le] at hd ⊢
    constructor <;> [linarith [hd.1]; linarith [hd.2]]

/-- C2 counterexample: `c = -2 - 5^{-60}` has modulus strictly above `2`, yet
fifty iterations do not reach the clamp: the orbit stays near `2`, so
`mandelbrot c 50` is the modulus of the fiftieth orbit point, not `1000`. -/
theorem mandelbrot_slow_escape_cex :
    2 < Complex.abs ((aSlow : ℝ) : ℂ) ∧ mandelbrot ((aSlow : ℝ) : ℂ) 50 ≠ 1000 := by
  constructor
  · rw [Complex.abs_ofReal, abs_of_nonpos (by unfold aSlow; norm_num)]
    unfold aSlow
    norm_num
  · have hno : ∀ j, 0 < j → j ≤ 0 + 50 →
        Complex.abs (zSeq ((aSlow : ℝ) : ℂ) j) ≤ 1000 := by
      intro j hj1 hj2
      rw [zSeq_aSlow, Complex.abs_ofReal]
      have h := rSlow_abs_le j (by omega) (by omega)
      linarith
    have hrun := mandelbrotGo_run ((aSlow : ℝ) : ℂ) 50 0 hno
    have hz0 : zSeq ((aSlow : ℝ) : ℂ) 0 = 0 := rfl
    rw [hz0, Nat.zero_add, zSeq_aSlow, Complex.abs_ofReal] at hrun
    have hm : mandelbrot ((aSlow : ℝ) : ℂ) 50 = |rSlow 50| := hrun
    intro hcl
    rw [hcl] at hm
    have h50 := rSlow_abs_le 50 (by omega) (by omega)
    rw [← hm] at h50
    norm_num at h50

/-- C3: the value returned by `mandelbrot` always lies in the closed interval
`[0, 1000]`: on escape the constant `1000` is returned (never a modulus above
the bail-out), and otherwise a modulus that passed every `≤ 1000` check. -/
theorem mandelbrot_range (c : ℂ) (iter : ℕ) :
    0 ≤ mandelbrot c iter ∧ mandelbrot c iter ≤ 1000 := by
  constructor
  · exact mandelbrotGo_nonneg c 0 iter
  · apply mandelbrotGo_le
    simp

/-! ### Blur: canvas.go -/

/-- The index list `[lo, hi)` of a Go loop `for i := lo; i < hi; i++`. -/
def intRange (lo hi : ℤ) : List ℤ := (List.range (hi - lo).toNat).map fun k => lo + k

/-- The `(i, j)` pairs visited and not skipped by the double loop of
`BlurPixel`: `i` (and `j`) runs from `x - radius` to `x + radius` and is
skipped when `i < 0 || i > size.X` (respectively `j < 0 || j > size.Y`) — the
`>` comparison keeps `i = width` and `j = height`, one past the last column
and row. -/
def blurTaps (c : Canvas) (x y radius : ℤ) : List (ℤ × ℤ) :=
  ((intRange (x - radius) (x + radius + 1)).filter fun i =>
    decide (¬(i < 0 ∨ c.width < i))).flatMap fun i =>
    ((intRange (y - radius) (y + radius + 1)).filter fun j =>
      decide (¬(j < 0 ∨ c.height < j))).map fun j => (i, j)

/-- The `weightSum` accumulator of `BlurPixel`: the sum of
`weight.Weight(i-x, j-y)` over the visited pairs. -/
def blurWeightSum (c : Canvas) (x y radius : ℤ) (w : ℤ → ℤ → ℝ) : ℝ :=
  ((blurTaps c x y radius).map fun p => w (p.1 - x) (p.2 - y)).sum

/-- One channel accumulator of `BlurPixel` (`outR`, `outG` or `outB`): the sum
of the 16-bit channel value of `c.At(i, j).RGBA()` times the offset weight. -/
def blurChannel (c : Canvas) (x y radius : ℤ) (w : ℤ → ℤ → ℝ) (ch : Rgba → ℕ) : ℝ :=
  ((blurTaps c x y radius).map fun p =>
    (r16 (ch (c.At p.1 p.2)) : ℝ) * w (p.1 - x) (p.2 - y)).sum

/-- Method `BlurPixel` from canvas.go: each channel accumulator is divided by
`weightSum * 0xFF`, converted with `uint8(...)`, and the result is fully
opaque (`A = 255`); the source alpha is read and discarded. -/
def Canvas.BlurPixel (c : Canvas) (x y radius : ℤ) (w : ℤ → ℤ → ℝ) : Rgba :=
  ⟨goUint8 (blurChannel c x y radius w Rgba.r / (blurWeightSum c x y radius w * 255)),
   goUint8 (blurChannel c x y radius w Rgba.g / (blurWeightSum c x y radius w * 255)),
   goUint8 (blurChannel c x y radius w Rgba.b / (blurWeightSum c x y radius w * 255)),
   255⟩

/-- Method `Blur` from canvas.go: every in-bounds pixel of a clone is set to the
`BlurPixel` value computed on the unmodified source, and the clone's buffer is
copied back at the end. -/
def Canvas.Blur (c : Canvas) (radius : ℤ) (w : ℤ → ℤ → ℝ) : Canvas :=
  { c with data := fun x y =>
      if c.inBounds x y then c.BlurPixel x y radius w else c.data x y }

/-- Weight method of `WeightFunctionBox`: uniform weight `1.0`. -/
def weightBox : ℤ → ℤ → ℝ := fun _ _ => 1

/-- Weight method of `WeightFunctionDist`: `1 / (1 + hypot(x, y))`. -/
def weightDist : ℤ → ℤ → ℝ := fun x y =>
  1 / (1 + Real.sqrt ((x : ℝ) * x + (y : ℝ) * y))

/-- Weight method of `WeightFunctionMotion`: zero off the trailing horizontal direction,
else `0.3 + 0.7 / sqrt(1 + x)`. -/
def weightMotion : ℤ → ℤ → ℝ := fun x y =>
  if y ≠ 0 then 0 else if x < 0 then 0 else 0.3 + 0.7 / Real.sqrt (1 + (x : ℝ))

/-- Weight method of `WeightFunctionDouble` with its `split` configuration field: `1.0`
at the two horizontal taps `x = ±split`, else `0`. -/
def weightDouble (split : ℤ) : ℤ → ℤ → ℝ := fun x y =>
  if y = 0 ∧ (x = split ∨ x = -split) then 1 else 0

/-- The tap list the specification asks for (claim C5): only offsets whose
target lies strictly inside `[0, width) × [0, height)` are used. -/
def blurTapsSpec (c : Canvas) (x y radius : ℤ) : List (ℤ × ℤ) :=
  ((intRange (x - radius) (x + radius + 1)).filter fun i =>
    decide (0 ≤ i ∧ i < c.width)).flatMap fun i =>
    ((intRange (y - radius) (y + radius + 1)).filter fun j =>
      decide (0 ≤ j ∧ j < c.height)).map fun j => (i, j)

/-- Method `BlurPixel` as the specification describes it (claim C5): the weighted
average over the in-bounds window targets only. -/
def blurPixelSpec (c : Canvas) (x y radius : ℤ) (w : ℤ → ℤ → ℝ) : Rgba :=
  ⟨goUint8 ((((blurTapsSpec c x y radius).map fun p =>
      (r16 (Rgba.r (c.At p.1 p.2)) : ℝ) * w (p.1 - x) (p.2 - y)).sum) /
      ((((blurTapsSpec c x y radius).map fun p => w (p.1 - x) (p.2 - y)).sum) * 255)),
   goUint8 ((((blurTapsSpec c x y radius).map fun p =>
      (r16 (Rgba.g (c.At p.1 p.2)) : ℝ) * w (p.1 - x) (p.2 - y)).sum) /
      ((((blurTapsSpec c x y radius).map fun p => w (p.1 - x) (p.2 - y)).sum) * 255)),
   goUint8 ((((blurTapsSpec c x y radius).map fun p =>
      (r16 (Rgba.b (c.At p.1 p.2)) : ℝ) * w (p.1 - x) (p.2 - y)).sum) /
      ((((blurTapsSpec c x y radius).map fun p => w (p.1 - x) (p.2 - y)).sum) * 255)),
   255⟩

/-- A 2×1 canvas whose two pixels are the uniform color `(100, 100, 100, 255)`. -/
def flat2 : Canvas := ⟨2, 1, fun _ _ => ⟨100, 100, 100, 255⟩⟩

/-- A 1×1 canvas holding the single pixel `(128, 128, 128, 255)`. -/
def gray1 : Canvas := ⟨1, 1, fun _ _ => ⟨128, 128, 128, 255⟩⟩

/-! ### Claim theorems: colorizer -/

/-- C4 (amended): the colorizer computes `index = clamp(⌊300*mag⌋, 1, H-1)` —
truncation, not rounding — and returns the gradient pixel at `(0, index)`; the
index always lies in `[1, H-1]` and `colorize 0` returns the color at row 1. -/
theorem colorize_floor_clamp (gradient : Canvas) (mag : ℝ) (_hm : 0 ≤ mag)
    (hH : 2 ≤ gradient.height) :
    colorize gradient mag =
      gradient.At 0 (max (min ⌊300 * mag⌋ (gradient.height - 1)) 1) ∧
    1 ≤ max (min ⌊300 * mag⌋ (gradient.height - 1)) 1 ∧
    max (min ⌊300 * mag⌋ (gradient.height - 1)) 1 ≤ gradient.height - 1 ∧
    colorize gradient 0 = gradient.At 0 1 := by
  have hL : (0 : ℝ) ≤ ((gradient.height - 1 : ℤ) : ℝ) := by
    have h1 : (1 : ℤ) ≤ gradient.height - 1 := by omega
    have h0 : (0 : ℤ) ≤ gradient.height - 1 := by omega
    exact_mod_cast h0
  refine ⟨?_, le_max_right _ _, ?_, ?_⟩
  · unfold colorize
    congr 1
    have h1 : (1 : ℝ) ≤ max (min (300 * mag) ((gradient.height - 1 : ℤ) : ℝ)) 1 :=
      le_max_right _ _
    rw [goTrunc, if_pos (by linarith)]
    have h2 : ⌊max (min (300 * mag) ((gradient.height - 1 : ℤ) : ℝ)) 1⌋ =
        max ⌊min (300 * mag) ((gradient.height - 1 : ℤ) : ℝ)⌋ ⌊(1 : ℝ)⌋ :=
      Monotone.map_max Int.floor_mono
    have h3 : ⌊min (300 * mag) ((gradient.height - 1 : ℤ) : ℝ)⌋ =
        min ⌊300 * mag⌋ ⌊((gradient.height - 1 : ℤ) : ℝ)⌋ :=
      Monotone.map_min Int.floor_mono
    rw [h2, h3, Int.floor_intCast, Int.floor_one]
  · refine max_le (le_trans (min_le_right _ _) (le_refl _)) (by omega)
  · unfold colorize
    congr 1
    have h300 : (300 : ℝ) * 0 = 0 := by ring
    rw [h300, min_eq_left hL, max_eq_right (by norm_num : (0 : ℝ) ≤ 1)]
    rw [goTrunc, if_pos (by norm_num)]
    exact Int.floor_one

/-- C4 witness: the amended formula applied to the concrete gradient strip at
magnitude `1/200`. -/
theorem colorize_floor_clamp_witness :
    (0 : ℝ) ≤ 1 / 200 ∧ (2 : ℤ) ≤ gradC.height ∧
    colorize gradC (1 / 200) =
      gradC.At 0 (max (min ⌊(300 : ℝ) * (1 / 200)⌋ (gradC.height - 1)) 1) :=
  ⟨by norm_num, by norm_num [gradC],
    (colorize_floor_clamp gradC (1 / 200) (by norm_num) (by norm_num [gradC])).1⟩

/-- C4 counterexample: at magnitude `1/200` we have `300*mag = 1.5`; the code
truncates and reads row 1, while the claimed formula `clamp(round(300*mag), 1,
H-1)` rounds to row 2 — a different pixel of the gradient strip. -/
theorem colorize_round_cex :
    colorize gradC (1 / 200) = ⟨1, 0, 0, 255⟩ ∧
    gradC.At 0 (max (min (round ((300 : ℝ) * (1 / 200))) (gradC.height - 1)) 1) =
      ⟨2, 0, 0, 255⟩ ∧
    (⟨1, 0, 0, 255⟩ : Rgba) ≠ ⟨2, 0, 0, 255⟩ := by
  refine ⟨?_, ?_, by decide⟩
  · unfold colorize
    have hidx : goTrunc (max (min ((300 : ℝ) * (1 / 200)) ((gradC.height - 1 : ℤ) : ℝ)) 1) =
        1 := by
      have hmin : min ((300 : ℝ) * (1 / 200)) ((gradC.height - 1 : ℤ) : ℝ) =
          (300 : ℝ) * (1 / 200) := by
        apply min_eq_left
        norm_num [gradC]
      rw [hmin, max_eq_left (by norm_num : (1 : ℝ) ≤ 300 * (1 / 200))]
      rw [goTrunc, if_pos (by norm_num)]
      norm_num
    rw [hidx]
    simp [gradC, Canvas.At, Canvas.inBounds]
  · have hround : round ((300 : ℝ) * (1 / 200)) = 2 := by
      rw [round_eq]
      norm_num
    rw [hround]
    have hidx : max (min (2 : ℤ) (gradC.height - 1)) 1 = 2 := by
      norm_num [gradC]
    rw [hidx]
    simp [gradC, Canvas.At, Canvas.inBounds]

/-! ### Claim theorems: blur -/

lemma goUint8_eq (r : ℝ) (hr : 0 ≤ r) : goUint8 r = (⌊r⌋ % 256).toNat := by
  unfold goUint8 goTrunc
  rw [if_pos hr]

lemma Blur_At (c : Canvas) (x y radius : ℤ) (w : ℤ → ℤ → ℝ) (h : c.inBounds x y) :
    (c.Blur radius w).At x y = c.BlurPixel x y radius w := by
  have hb : (c.Blur radius w).inBounds x y := h
  unfold Canvas.At
  rw [if_pos hb]
  show (if c.inBounds x y then c.BlurPixel x y radius w else c.data x y) = _
  rw [if_pos h]

/-- C6: box blur with radius `0` does NOT leave the canvas unchanged — a pixel
with channel value `128` comes back as `129`, because `BlurPixel` expands the
channel to 16 bits (factor `0x101 = 257`) but divides by `weightSum * 0xFF`
(factor `255`): the single-tap window yields `⌊128*257/255⌋ = 129`. -/
theorem blur_radius_zero_not_identity :
    (gray1.Blur 0 weightBox).At 0 0 = ⟨129, 129, 129, 255⟩ ∧
    gray1.At 0 0 = ⟨128, 128, 128, 255⟩ ∧
    gray1.Blur 0 weightBox ≠ gray1 := by
  have hAt : gray1.At 0 0 = ⟨128, 128, 128, 255⟩ := by
    unfold Canvas.At
    rw [if_pos (by decide)]
    rfl
  have hts : blurTaps gray1 0 0 0 = [(0, 0)] := by decide
  have hws : blurWeightSum gray1 0 0 0 weightBox = 1 := by
    unfold blurWeightSum
    rw [hts]
    simp [weightBox]
  have hchr : blurChannel gray1 0 0 0 weightBox Rgba.r = 32896 := by
    unfold blurChannel
    rw [hts]
    simp [weightBox, r16, hAt]
    norm_num
  have hchg : blurChannel gray1 0 0 0 weightBox Rgba.g = 32896 := by
    unfold blurChannel
    rw [hts]
    simp [weightBox, r16, hAt]
    norm_num
  have hchb : blurChannel gray1 0 0 0 weightBox Rgba.b = 32896 := by
    unfold blurChannel
    rw [hts]
    simp [weightBox, r16, hAt]
    norm_num
  have hval : goUint8 ((32896 : ℝ) / (1 * 255)) = 129 := by
    rw [goUint8_eq _ (by norm_num)]
    norm_num
    decide
  have hbp : gray1.BlurPixel 0 0 0 weightBox = ⟨129, 129, 129, 255⟩ := by
    unfold Canvas.BlurPixel
    rw [hws, hchr, hchg, hchb, hval]
  have h1 : (gray1.Blur 0 weightBox).At 0 0 = ⟨129, 129, 129, 255⟩ := by
    rw [Blur_At gray1 0 0 0 weightBox (by decide), hbp]
  refine ⟨h1, hAt, ?_⟩
  intro heq
  have h2 := congrArg (fun cv => Canvas.At cv 0 0) heq
  simp only [h1, hAt] at h2
  exact absurd h2 (by decide)

/-- C8: a window whose weights sum to zero (radius `0` with the `Double`
weight at `split = 1`) is not rejected: `BlurPixel` divides by the zero weight
sum and silently yields a garbage opaque pixel instead of failing fast. -/
theorem blurPixel_zero_weight_no_error :
    blurWeightSum gray1 0 0 0 (weightDouble 1) = 0 ∧
    gray1.BlurPixel 0 0 0 (weightDouble 1) = ⟨0, 0, 0, 255⟩ := by
  have hts : blurTaps gray1 0 0 0 = [(0, 0)] := by decide
  have hw0 : weightDouble 1 0 0 = 0 := by
    unfold weightDouble
    rw [if_neg (by decide)]
  have hws : blurWeightSum gray1 0 0 0 (weightDouble 1) = 0 := by
    unfold blurWeightSum
    rw [hts]
    simp [hw0]
  refine ⟨hws, ?_⟩
  have hchr : blurChannel gray1 0 0 0 (weightDouble 1) Rgba.r = 0 := by
    unfold blurChannel
    rw [hts]
    simp [hw0]
  have hchg : blurChannel gray1 0 0 0 (weightDouble 1) Rgba.g = 0 := by
    unfold blurChannel
    rw [hts]
    simp [hw0]
  have hchb : blurChannel gray1 0 0 0 (weightDouble 1) Rgba.b = 0 := by
    unfold blurChannel
    rw [hts]
    simp [hw0]
  have hval : goUint8 ((0 : ℝ) / (0 * 255)) = 0 := by
    rw [goUint8_eq _ (by norm_num)]
    norm_num
  unfold Canvas.BlurPixel
  rw [hws, hchr, hchg, hchb, hval]

/-- C5: the bounds check of `BlurPixel` is off by one (`i > size.X` instead of
`i >= size.X`): blurring the edge pixel `(1,0)` of a 2×1 uniform canvas with a
radius-1 box window lets the out-of-range columns/rows contribute their weight
(but zero color) to the normalization, giving channel `33`; the weighted
average over the in-bounds window only, as the claim requires, gives `100`. -/
theorem blurPixel_bounds_bug :
    (flat2.BlurPixel 1 0 1 weightBox).r = 33 ∧
    (blurPixelSpec flat2 1 0 1 weightBox).r = 100 ∧
    (33 : ℕ) ≠ 100 := by
  refine ⟨?_, ?_, by decide⟩
  · have hts : blurTaps flat2 1 0 1 = [(0, 0), (0, 1), (1, 0), (1, 1), (2, 0), (2, 1)] := by
      decide
    have hws : blurWeightSum flat2 1 0 1 weightBox = 6 := by
      unfold blurWeightSum
      rw [hts]
      simp [weightBox]
      norm_num
    have hchr : blurChannel flat2 1 0 1 weightBox Rgba.r = 51400 := by
      unfold blurChannel
      rw [hts]
      simp [weightBox, r16, Canvas.At, Canvas.inBounds, flat2]
      norm_num
    show goUint8 (blurChannel flat2 1 0 1 weightBox Rgba.r /
      (blurWeightSum flat2 1 0 1 weightBox * 255)) = 33
    rw [hws, hchr, goUint8_eq _ (by norm_num)]
    norm_num
    decide
  · have hts : blurTapsSpec flat2 1 0 1 = [(0, 0), (1, 0)] := by decide
    show goUint8 _ = 100
    rw [hts]
    simp only [List.map_cons, List.map_nil, List.sum_cons, List.sum_nil]
    have hAt0 : flat2.At 0 0 = ⟨100, 100, 100, 255⟩ := by
      unfold Canvas.At
      rw [if_pos (by decide)]
      rfl
    have hAt1 : flat2.At 1 0 = ⟨100, 100, 100, 255⟩ := by
      unfold Canvas.At
      rw [if_pos (by decide)]
      rfl
    rw [hAt0, hAt1]
    simp only [weightBox, r16]
    rw [goUint8_eq _ (by norm_num)]
    norm_num
    decide

set_option maxRecDepth 4000

/-- C10: the pixel returned by `BlurPixel` is always fully opaque (`A = 255`),
and the alpha channel of the source pixels never influences the resulting
R, G, B values: two canvases of the same size agreeing on R, G and B blur to
the same R, G and B. -/
theorem blurPixel_alpha_opaque (c1 c2 : Canvas) (x y radius : ℤ) (w : ℤ → ℤ → ℝ)
    (hw : c1.width = c2.width) (hh : c1.height = c2.height)
    (hrgb : ∀ i j, (c1.data i j).r = (c2.data i j).r ∧
      (c1.data i j).g = (c2.data i j).g ∧ (c1.data i j).b = (c2.data i j).b) :
    (c1.BlurPixel x y radius w).a = 255 ∧
    (c1.BlurPixel x y radius w).r = (c2.BlurPixel x y radius w).r ∧
    (c1.BlurPixel x y radius w).g = (c2.BlurPixel x y radius w).g ∧
    (c1.BlurPixel x y radius w).b = (c2.BlurPixel x y radius w).b := by
  have htaps : blurTaps c1 x y radius = blurTaps c2 x y radius := by
    unfold blurTaps
    rw [hw, hh]
  have hAt : ∀ i j, (c1.At i j).r = (c2.At i j).r ∧
      (c1.At i j).g = (c2.At i j).g ∧ (c1.At i j).b = (c2.At i j).b := by
    intro i j
    unfold Canvas.At Canvas.inBounds
    by_cases h : 0 ≤ i ∧ i < c1.width ∧ 0 ≤ j ∧ j < c1.height
    · rw [if_pos h, if_pos (by rw [← hw, ← hh]; exact h)]
      exact hrgb i j
    · rw [if_neg h, if_neg (by rw [← hw, ← hh]; exact h)]
      exact ⟨rfl, rfl, rfl⟩
  have hws : blurWeightSum c1 x y radius w = blurWeightSum c2 x y radius w := by
    unfold blurWeightSum
    rw [htaps]
  have hch : ∀ ch1 ch2 : Rgba → ℕ,
      (∀ i j, ch1 (c1.At i j) = ch2 (c2.At i j)) →
      blurChannel c1 x y radius w ch1 = blurChannel c2 x y radius w ch2 := by
    intro ch1 ch2 hag
    unfold blurChannel
    rw [htaps]
    congr 1
    apply List.map_congr_left
    intro p hp
    rw [hag p.1 p.2]
  refine ⟨rfl, ?_, ?_, ?_⟩
  · show goUint8 _ = goUint8 _
    rw [hch Rgba.r Rgba.r (fun i j => (hAt i j).1), hws]
  · show goUint8 _ = goUint8 _
    rw [hch Rgba.g Rgba.g (fun i j => (hAt i j).2.1), hws]
  · show goUint8 _ = goUint8 _
    rw [hch Rgba.b Rgba.b (fun i j => (hAt i j).2.2), hws]

/-! ### DrawLine: canvas.go -/

/-- Modelled from the spec: the repository's 2-D vector type (the file defining
`Vector` is not among the sources; §2 and §3 of the spec describe Vector2D as
`{x: float64, y: float64}` with add, subtract, length, rotate and scale). -/
structure Vector where
  X : ℝ
  Y : ℝ

/-- Modelled from the spec: componentwise subtraction `to.Sub(from)` of
Vector2D. -/
def Vector.Sub (v w : Vector) : Vector := ⟨v.X - w.X, v.Y - w.Y⟩

/-- Modelled from the spec: the euclidean length of a Vector2D. -/
def Vector.Length (v : Vector) : ℝ := Real.sqrt (v.X * v.X + v.Y * v.Y)

/-- The integer pixels sampled by `DrawLine` in canvas.go: with
`delta = to.Sub(from)`, `length = delta.Length()`, unit steps
`x_step = delta.X/length`, `y_step = delta.Y/length` and
`limit = int(length + 0.5)`, the `i`-th pixel set is
`(int(from.X + float64(i)*x_step), int(from.Y + float64(i)*y_step))` for
`i = 0, ..., limit-1`. -/
def drawLineSteps (f t : Vector) : List (ℤ × ℤ) :=
  (List.range (goTrunc ((t.Sub f).Length + 0.5)).toNat).map fun i =>
    (goTrunc (f.X + (i : ℝ) * ((t.Sub f).X / (t.Sub f).Length)),
     goTrunc (f.Y + (i : ℝ) * ((t.Sub f).Y / (t.Sub f).Length)))

/-- Method `DrawLine` from canvas.go: walk the sampled pixels in order, setting each. -/
def Canvas.DrawLine (c : Canvas) (col : Rgba) (f t : Vector) : Canvas :=
  (drawLineSteps f t).foldl (fun cv p => cv.Set p.1 p.2 col) c

/-- C9 (amended): `DrawLine` performs a fixed-step walk of exactly
`round(length(to - from))` steps — not `round(length) + 1` — advancing by the
unit direction vector per increment and setting each sampled integer pixel. -/
theorem drawLine_walk (c : Canvas) (col : Rgba) (f t : Vector) :
    c.DrawLine col f t =
      ((List.range (round ((t.Sub f).Length)).toNat).map fun i =>
        (goTrunc (f.X + (i : ℝ) * ((t.Sub f).X / (t.Sub f).Length)),
         goTrunc (f.Y + (i : ℝ) * ((t.Sub f).Y / (t.Sub f).Length)))).foldl
        (fun cv p => cv.Set p.1 p.2 col) c := by
  unfold Canvas.DrawLine drawLineSteps
  have hL : 0 ≤ (t.Sub f).Length := Real.sqrt_nonneg _
  have h1 : goTrunc ((t.Sub f).Length + 0.5) = round ((t.Sub f).Length) := by
    rw [goTrunc, if_pos (by linarith), round_eq,
      show (0.5 : ℝ) = 1 / 2 by norm_num]
  rw [h1]

/-- C9 counterexample: the segment from `(0,0)` to `(3,0)` has length `3`; the
code samples `round(3) = 3` pixels, not the `round(3) + 1 = 4` the claim
asserts. -/
theorem drawLine_step_count_cex :
    (drawLineSteps ⟨0, 0⟩ ⟨3, 0⟩).length = 3 ∧
    round ((Vector.Sub ⟨3, 0⟩ ⟨0, 0⟩).Length) + 1 = 4 ∧
    ((drawLineSteps ⟨0, 0⟩ ⟨3, 0⟩).length : ℤ) ≠
      round ((Vector.Sub ⟨3, 0⟩ ⟨0, 0⟩).Length) + 1 := by
  have hlen : (Vector.Sub ⟨3, 0⟩ ⟨0, 0⟩).Length = 3 := by
    show Real.sqrt (((3 : ℝ) - 0) * ((3 : ℝ) - 0) + ((0 : ℝ) - 0) * ((0 : ℝ) - 0)) = 3
    rw [show ((3 : ℝ) - 0) * ((3 : ℝ) - 0) + ((0 : ℝ) - 0) * ((0 : ℝ) - 0) = 3 ^ 2 by
      norm_num]
    exact Real.sqrt_sq (by norm_num)
  have hlim : goTrunc ((Vector.Sub ⟨3, 0⟩ ⟨0, 0⟩).Length + 0.5) = 3 := by
    rw [hlen, goTrunc, if_pos (by norm_num)]
    norm_num
  have hsteps : (drawLineSteps ⟨0, 0⟩ ⟨3, 0⟩).length = 3 := by
    unfold drawLineSteps
    simp only [List.length_map, List.length_range]
    rw [hlim]
    rfl
  have hround : round ((Vector.Sub ⟨3, 0⟩ ⟨0, 0⟩).Length) = 3 := by
    rw [hlen, round_eq]
    norm_num
  refine ⟨hsteps, by rw [hround]; decide, ?_⟩
  rw [hsteps, hround]
  norm_num

/-- A 1×1 canvas with a transparent pixel `(5, 6, 7, 0)`. -/
def alpha0 : Canvas := ⟨1, 1, fun _ _ => ⟨5, 6, 7, 0⟩⟩

/-- A 1×1 canvas with an opaque pixel `(5, 6, 7, 255)`. -/
def alpha255 : Canvas := ⟨1, 1, fun _ _ => ⟨5, 6, 7, 255⟩⟩

/-- C10 witness: two concrete canvases differing only in alpha blur to the
same R channel, with an opaque result. -/
theorem blurPixel_alpha_opaque_witness :
    alpha0.width = alpha255.width ∧
    (alpha0.BlurPixel 0 0 1 weightBox).a = 255 ∧
    (alpha0.BlurPixel 0 0 1 weightBox).r = (alpha255.BlurPixel 0 0 1 weightBox).r := by
  have h := blurPixel_alpha_opaque alpha0 alpha255 0 0 1 weightBox rfl rfl
    (fun i j => ⟨rfl, rfl, rfl⟩)
  exact ⟨rfl, h.1, h.2.1⟩

end

end Fractals
